import Mathlib

/-!
Verification of `deathaxe/DefaultSyntaxChooser` (src/default_syntax.py).

The plugin has two parts:

* `DialectFileInputHandler.list_items`: enumerates registered syntaxes whose
  scope starts with the first two dot-segments of the umbrella's scope,
  skipping hidden syntaxes and the umbrella itself, and marks as selected the
  syntax resolved from the umbrella text's first
  `^extends:\s+(?:-\s+)?(\S+)` match (multiline).

* `SetDefaultSyntaxDialect.run`: validates both paths, loads the umbrella
  resource, rewrites every multiline match of `(^extends:\s+(?:-\s+)?)\S+`
  to `\1<dialect path>`, and writes the result (UTF-8, newline "\n") to the
  resource path resolved against the parent of the packages path, unless the
  text is unchanged.

The host API (`sublime.*`) is modelled as an explicit environment: a registry
of syntax resources, a resource store, and the packages path.  Python regex
matching is embedded directly: `matchExtendsAt` is the anchored attempt of
the pattern at one position (including the backtracking corner where the
optional `-\s+` group is given up and the token becomes the dash itself), and
the scanners try every line-start position from left to right, exactly as
`re.search` / `re.sub` with `re.MULTILINE` do for a pattern anchored by `^`.
-/

set_option maxRecDepth 16384

namespace DefaultSyntaxChooser

/-- Python `re` whitespace (`\s`) for `str` patterns: ASCII whitespace plus
the Unicode whitespace characters matched by `re` in Unicode mode. -/
def isPySpace (c : Char) : Bool :=
  c == ' ' || c == '\t' || c == '\n' || c == '\r' || c == '\x0b' || c == '\x0c' ||
  c == '\x1c' || c == '\x1d' || c == '\x1e' || c == '\x1f' || c == '\x85' ||
  c == '\xa0' || c == '\u1680' || (0x2000 ≤ c.toNat && c.toNat ≤ 0x200a) ||
  c == '\u2028' || c == '\u2029' || c == '\u202f' || c == '\u205f' || c == '\u3000'

/-- The literal `extends:` that both regexes start with (after the `^` anchor). -/
def extendsLit : List Char := "extends:".data

/-- One anchored attempt of `extends:\s+(?:-\s+)?` followed by `\S+` at the
head of `cs` (the caller checks the `^` anchor).  Returns
`some (pre, tok, rest)` where `pre` is the text matched by
`extends:\s+(?:-\s+)?` (group 1 of the substitution pattern), `tok` the text
matched by `\S+` (group 1 of the search pattern) and `rest` the remainder of
the input.  Greedy matching with backtracking: after `extends:` the regex
takes the maximal whitespace run (which may cross line endings, since `\s`
matches `\n`); if a dash follows, `-\s+` is tried greedily and is given up
when no non-whitespace character follows its whitespace run, in which case
`\S+` matches starting at the dash itself. -/
def matchExtendsAt (cs : List Char) : Option (List Char × List Char × List Char) :=
  if extendsLit.isPrefixOf cs then
    match (cs.drop 8).dropWhile isPySpace with
    | [] => none
    | c :: cs1 =>
      if (cs.drop 8).takeWhile isPySpace = [] then none
      else if c = '-' then
        if cs1.takeWhile isPySpace = [] then
          some (extendsLit ++ (cs.drop 8).takeWhile isPySpace,
                (c :: cs1).takeWhile (fun d => !isPySpace d),
                (c :: cs1).dropWhile (fun d => !isPySpace d))
        else
          match cs1.dropWhile isPySpace with
          | [] => some (extendsLit ++ (cs.drop 8).takeWhile isPySpace, [c], cs1)
          | d :: rest2 =>
            some (extendsLit ++ (cs.drop 8).takeWhile isPySpace ++ c :: cs1.takeWhile isPySpace,
                  (d :: rest2).takeWhile (fun e => !isPySpace e),
                  (d :: rest2).dropWhile (fun e => !isPySpace e))
      else
        some (extendsLit ++ (cs.drop 8).takeWhile isPySpace,
              (c :: cs1).takeWhile (fun d => !isPySpace d),
              (c :: cs1).dropWhile (fun d => !isPySpace d))
  else none

/-- Leftmost-match scan of `re.search(r"^extends:\s+(?:-\s+)?(\S+)", _, re.M)`:
try the anchored attempt at position 0 and after every newline, left to
right.  Returns `some (skipped, pre, tok, rest)` for the first match, where
`skipped` is the text before the match. -/
def firstMatchScan (lineStart : Bool) (cs : List Char) :
    Option (List Char × List Char × List Char × List Char) :=
  match cs with
  | [] => none
  | c :: rest =>
    if lineStart then
      match matchExtendsAt (c :: rest) with
      | some (pre, tok, rem) => some ([], pre, tok, rem)
      | none => (firstMatchScan (c == '\n') rest).map (fun r => (c :: r.1, r.2))
    else (firstMatchScan (c == '\n') rest).map (fun r => (c :: r.1, r.2))

/-- Whether the multiline pattern matches anywhere in `cs` (scanning with the
same line-start discipline as `firstMatchScan`). -/
def hasMatchFrom (lineStart : Bool) (cs : List Char) : Bool :=
  match cs with
  | [] => false
  | c :: rest =>
    if lineStart && (matchExtendsAt (c :: rest)).isSome then true
    else hasMatchFrom (c == '\n') rest

/-- Fuel-indexed scan of `re.sub(r"(^extends:\s+(?:-\s+)?)\S+", rf"\1{path}", _, re.M)`:
at every line start try the anchored attempt; on a match emit group 1
unchanged followed by `p` (the replacement `\1{path}`; resource paths contain
no backslash and do not start with a digit, so the template is group 1
followed by the literal path), then resume after the match (never at a line
start, because the matched token ends in a non-newline character); otherwise
copy one character.  One unit of fuel is spent per step; since every step
consumes at least one input character, `cs.length` fuel always suffices. -/
def subAuxF (p : List Char) : Nat → Bool → List Char → List Char
  | 0, _, cs => cs
  | _ + 1, _, [] => []
  | fuel + 1, lineStart, c :: rest =>
    if lineStart then
      match matchExtendsAt (c :: rest) with
      | some (pre, _, rem) => pre ++ (p ++ subAuxF p fuel false rem)
      | none => c :: subAuxF p fuel (c == '\n') rest
    else c :: subAuxF p fuel (c == '\n') rest

/-- The substitution scan run with sufficient fuel. -/
def subScan (p : List Char) (lineStart : Bool) (cs : List Char) : List Char :=
  subAuxF p cs.length lineStart cs

/-- `re.sub(r"(^extends:\s+(?:-\s+)?)\S+", rf"\1{dialect_path}", text, flags=re.MULTILINE)`. -/
def subExtends (p : String) (text : String) : String :=
  ⟨subScan p.data true text.data⟩

/-- `match.group(1)` of
`re.search(r"^extends:\s+(?:-\s+)?(\S+)", text, flags=re.MULTILINE)`. -/
def searchExtends (text : String) : Option String :=
  (firstMatchScan true text.data).map (fun r => ⟨r.2.2.1⟩)

/-- Python `str.split(sep)` for a single-character separator (never returns
an empty list; splitting the empty string yields `[[]]`). -/
def splitChar (sep : Char) : List Char → List (List Char)
  | [] => [[]]
  | c :: cs =>
    if c = sep then [] :: splitChar sep cs
    else
      match splitChar sep cs with
      | [] => [[c]]
      | g :: gs => (c :: g) :: gs

/-- Join char-list segments with a separator (inverse of `splitChar` used to
model `pathlib` joining and parent computation). -/
def joinChar (sep : Char) : List (List Char) → List Char
  | [] => []
  | [g] => g
  | g :: gs => g ++ sep :: joinChar sep gs

/-- A registered syntax resource as surfaced by the `sublime` API: resource
path, display name, scope and hidden flag.  Python compares these by
structural equality. -/
structure SyntaxRes where
  path : String
  name : String
  scope : String
  hidden : Bool
deriving DecidableEq

/-- The host environment: the registry behind `sublime.list_syntaxes`, the
resource store behind `sublime.load_resource`, and `sublime.packages_path`. -/
structure Env where
  syntaxes : List SyntaxRes
  resources : List (String × String)
  packagesPath : String

/-- `sublime.syntax_from_path`: the first registered syntax with the given
resource path, if any. -/
def syntax_from_path (env : Env) (path : String) : Option SyntaxRes :=
  env.syntaxes.find? (fun s => s.path == path)

/-- `sublime.load_resource`: the stored text for a resource path, if any
(`None` models the `IOError` raised for a missing resource). -/
def load_resource (env : Env) (path : String) : Option String :=
  (env.resources.find? (fun r => r.1 == path)).map (fun r => r.2)

/-- A `sublime.ListInputItem` as built by `list_items`: display text, value
(the candidate's resource path) and kind annotation. -/
structure ListInputItem where
  text : String
  value : String
  kind : Nat × String × String
deriving DecidableEq

/-- `sublime.KIND_AMBIGUOUS` = `(KIND_ID_AMBIGUOUS, "", "")`. -/
def KIND_AMBIGUOUS : Nat × String × String := (0, "", "")

/-- The `selected_kind` tuple `(KIND_ID_AMBIGUOUS, "✓", "Selected")`. -/
def selected_kind : Nat × String × String := (0, "✓", "Selected")

/-- Python exceptions that `list_items` can raise: `IndexError` from
`default_scopes[1]` when the scope has fewer than two dot-segments, and the
IO error from `load_resource` on a missing resource. -/
inductive PyError where
  | indexError
  | ioError
deriving DecidableEq

/-- `DialectFileInputHandler.list_items` for an umbrella `defaultSyn`:
derive the two-segment filter scope (raising `IndexError` when the scope has
fewer than two dot-segments — the indexing `default_scopes[1]` happens before
any other work), resolve the currently selected dialect out of the umbrella's
backing text, then list every registered syntax that is not hidden, is not
the umbrella itself, and whose scope starts (plain string prefix) with the
filter scope, marking the resolved selection. -/
def list_items (env : Env) (defaultSyn : SyntaxRes) : Except PyError (List ListInputItem) :=
  match splitChar '.' defaultSyn.scope.data with
  | s0 :: s1 :: _ =>
    match load_resource env defaultSyn.path with
    | none => .error .ioError
    | some content =>
      let selectedSyn : Option SyntaxRes :=
        match searchExtends content with
        | some p => syntax_from_path env p
        | none => none
      .ok ((env.syntaxes.filter (fun s =>
            !s.hidden && s != defaultSyn && (s0 ++ '.' :: s1).isPrefixOf s.scope.data)).map
          (fun s =>
            { text := s.name, value := s.path,
              kind := if selectedSyn = some s then selected_kind else KIND_AMBIGUOUS }))
  | _ => .error .indexError

/-- `pathlib.Path(p).parent`: drop the final path component. -/
def parentDir (p : String) : String :=
  ⟨joinChar '/' ((splitChar '/' p.data).dropLast)⟩

/-- `Path(sublime.packages_path()).parent / resourcePath`: the physical
on-disk location of a packaged resource. -/
def physicalPath (env : Env) (resourcePath : String) : String :=
  parentDir env.packagesPath ++ "/" ++ resourcePath

/-- The observable outcome of `SetDefaultSyntaxDialect.run`: the two error
prints (each naming the offending path), the uncaught IO error from
`load_resource`, the silent no-op return, or a file write with its target
path, content, encoding and newline mode (the `open` keyword arguments). -/
inductive RunResult where
  | invalidTarget (path : String)
  | invalidDialect (path : String)
  | loadError
  | noop
  | written (path : String) (content : String) (encoding : String) (newline : String)
deriving DecidableEq

/-- `SetDefaultSyntaxDialect.run(syntax_file, dialect_file)`: validate the
target syntax, validate the dialect syntax, load the target's resource text,
substitute the `extends:` target, and either return without touching the file
(content unchanged) or overwrite the file at the physical path with UTF-8
encoding and newline "\n". -/
def run (env : Env) (syntax_file : String) (dialect_file : String) : RunResult :=
  match syntax_from_path env syntax_file with
  | none => .invalidTarget syntax_file
  | some defaultSyn =>
    match syntax_from_path env dialect_file with
    | none => .invalidDialect dialect_file
    | some dialectSyn =>
      match load_resource env defaultSyn.path with
      | none => .loadError
      | some old_content =>
        let new_content := subExtends dialectSyn.path old_content
        if old_content = new_content then .noop
        else .written (physicalPath env defaultSyn.path) new_content "utf-8" "\n"

/-- A list that is empty or starts with a whitespace character: the shape of
the remainder after a maximal `\S+` token. -/
def wsHeaded : List Char → Bool
  | [] => true
  | c :: _ => isPySpace c

/-- A nonempty run of whitespace characters (what `\s+` matches). -/
def IsWsRun (l : List Char) : Prop := l ≠ [] ∧ ∀ c ∈ l, isPySpace c = true

/-- The exact shape of text matched by `extends:\s+(?:-\s+)?` (group 1 of the
substitution pattern): the literal, a nonempty whitespace run, and optionally
a dash followed by another nonempty whitespace run. -/
def ExtendsPreShape (pre : List Char) : Prop :=
  ∃ ws1 dash, pre = extendsLit ++ ws1 ++ dash ∧ IsWsRun ws1 ∧
    (dash = [] ∨ ∃ ws2, dash = '-' :: ws2 ∧ IsWsRun ws2)

/-- How `re.sub` may relate input to output (scanned with a line-start flag):
characters are copied verbatim — so every byte outside the replaced tokens,
including every line ending, is preserved — except that at a line start a
group-1 prefix `pre` (the `extends:` directive with its whitespace and
optional list-dash marker) is kept unchanged and only the following nonempty
whitespace-free token is replaced by `p`. -/
inductive ExtendsRw (p : List Char) : Bool → List Char → List Char → Prop where
  | nil (b : Bool) : ExtendsRw p b [] []
  | copy (b : Bool) (c : Char) (xs ys : List Char) :
      ExtendsRw p (c == '\n') xs ys → ExtendsRw p b (c :: xs) (c :: ys)
  | replace (pre tok xs ys : List Char) :
      ExtendsPreShape pre → tok ≠ [] → (∀ c ∈ tok, isPySpace c = false) →
      ExtendsRw p false xs ys →
      ExtendsRw p true (pre ++ (tok ++ xs)) (pre ++ (p ++ ys))

/-! Concrete resources used by the closed witnesses and counterexamples. -/

/-- Sample umbrella syntax (the spec's SQL scenario). -/
def sqlSyn : SyntaxRes :=
  { path := "Packages/SQL/SQL.sublime-syntax", name := "SQL", scope := "source.sql",
    hidden := false }

/-- Sample dialect currently selected by `sqlText`. -/
def mysqlSyn : SyntaxRes :=
  { path := "Packages/SQL/MySQL.sublime-syntax", name := "MySQL", scope := "source.sql.mysql",
    hidden := false }

/-- Sample alternative dialect. -/
def postgresSyn : SyntaxRes :=
  { path := "Packages/SQL/PostgreSQL.sublime-syntax", name := "PostgreSQL",
    scope := "source.sql.postgresql", hidden := false }

/-- Sample syntax outside the filter scope. -/
def pythonSyn : SyntaxRes :=
  { path := "Packages/Python/Python.sublime-syntax", name := "Python", scope := "source.python",
    hidden := false }

/-- Sample hidden syntax inside the filter scope. -/
def hiddenSyn : SyntaxRes :=
  { path := "Packages/SQL/SQL (Hidden).sublime-syntax", name := "SQL Hidden",
    scope := "source.sql.hidden", hidden := true }

/-- Backing text of the sample umbrella. -/
def sqlText : String :=
  "%YAML 1.2\n---\nname: SQL\nscope: source.sql\nversion: 2\n\nextends: Packages/SQL/MySQL.sublime-syntax\n\nfile_extensions:\n  - sql\n"

/-- Sample environment with all of the above registered. -/
def envMain : Env :=
  { syntaxes := [sqlSyn, mysqlSyn, postgresSyn, pythonSyn, hiddenSyn],
    resources := [(sqlSyn.path, sqlText)],
    packagesPath := "/home/u/Sublime Text/Packages" }

/-- An umbrella whose `extends:` directive names the umbrella itself. -/
def selfSyn : SyntaxRes :=
  { path := "Packages/Self/Self.sublime-syntax", name := "Self", scope := "source.self",
    hidden := false }

/-- Environment for the self-extending umbrella. -/
def envSelf : Env :=
  { syntaxes := [selfSyn],
    resources := [(selfSyn.path, "extends: Packages/Self/Self.sublime-syntax\n")],
    packagesPath := "/st/Packages" }

/-- A dialect whose resource path contains spaces (such paths exist in real
package installations, e.g. Sublime's own
`Packages/Java/Java Server Pages (JSP).sublime-syntax`). -/
def jspSyn : SyntaxRes :=
  { path := "Packages/Java/Java Server Pages (JSP).sublime-syntax", name := "JSP",
    scope := "text.html.jsp", hidden := false }

/-- Sample umbrella for the space-path counterexamples. -/
def webSyn : SyntaxRes :=
  { path := "Packages/Web/Web.sublime-syntax", name := "Web", scope := "text.html.web",
    hidden := false }

/-- Environment holding the state after `patch(webSyn, jspSyn)` was applied
to a file that previously extended `Packages/Java/JSP.sublime-syntax`. -/
def envAfterSpacePatch : Env :=
  { syntaxes := [webSyn, jspSyn],
    resources :=
      [(webSyn.path, "extends: Packages/Java/Java Server Pages (JSP).sublime-syntax\n")],
    packagesPath := "/st/Packages" }

/-- The sample umbrella text after `patch(sqlSyn, postgresSyn)`. -/
def sqlTextPg : String :=
  "%YAML 1.2\n---\nname: SQL\nscope: source.sql\nversion: 2\n\nextends: Packages/SQL/PostgreSQL.sublime-syntax\n\nfile_extensions:\n  - sql\n"

/-- Environment holding the state after `patch(sqlSyn, postgresSyn)`. -/
def envAfterPg : Env :=
  { syntaxes := [sqlSyn, postgresSyn],
    resources := [(sqlSyn.path, sqlTextPg)],
    packagesPath := "/home/u/Sublime Text/Packages" }

/-- An umbrella whose backing text has no `extends:` directive. -/
def noExtSyn : SyntaxRes :=
  { path := "Packages/X/X.sublime-syntax", name := "X", scope := "source.x", hidden := false }

/-- Backing text without any `extends:` line. -/
def noExtText : String := "%YAML 1.2\n---\nname: X\nscope: source.x\n"

/-- Environment for the umbrella without an `extends:` directive. -/
def envNoExt : Env :=
  { syntaxes := [noExtSyn, mysqlSyn],
    resources := [(noExtSyn.path, noExtText)],
    packagesPath := "/st/Packages" }

/-- A syntax whose scope has a single dot-segment. -/
def plainSyn : SyntaxRes :=
  { path := "Packages/Text/Plain text.tmLanguage", name := "Plain Text", scope := "text",
    hidden := false }

/-- Decidable equality for `Except` results (needed to evaluate the model on
concrete inputs). -/
def exceptDecEq {A B : Type} [DecidableEq A] [DecidableEq B] :
    DecidableEq (Except A B)
  | .error a, .error b =>
    match decEq a b with
    | isTrue h => isTrue (h ▸ rfl)
    | isFalse h => isFalse (fun hc => h (by injection hc))
  | .error _, .ok _ => isFalse (fun hc => Except.noConfusion hc)
  | .ok _, .error _ => isFalse (fun hc => Except.noConfusion hc)
  | .ok a, .ok b =>
    match decEq a b with
    | isTrue h => isTrue (h ▸ rfl)
    | isFalse h => isFalse (fun hc => h (by injection hc))

instance {A B : Type} [DecidableEq A] [DecidableEq B] : DecidableEq (Except A B) :=
  exceptDecEq

/-! ### Support lemmas about `takeWhile` / `dropWhile` / prefixes -/

theorem dropWhile_head_false {p : Char → Bool} :
    ∀ {l : List Char} {c : Char} {cs : List Char}, l.dropWhile p = c :: cs → p c = false := by
  intro l
  induction l with
  | nil => intro c cs h; exact absurd h (by simp)
  | cons a t ih =>
    intro c cs h
    rw [List.dropWhile_cons] at h
    by_cases ha : p a = true
    · rw [if_pos ha] at h; exact ih h
    · rw [if_neg ha] at h
      injection h with h1 h2
      subst h1
      simpa using ha

theorem eq_append_drop_of_isPrefixOf {l cs : List Char} (h : l.isPrefixOf cs = true) :
    cs = l ++ cs.drop l.length := by
  rw [ List.isPrefixOf_iff_prefix] at h
  obtain ⟨t, rfl⟩ := h
  rw [List.drop_left]

theorem wsHeaded_dropWhile_nonws (l : List Char) :
    wsHeaded (l.dropWhile (fun d => !isPySpace d)) = true := by
  cases hv : l.dropWhile (fun d => !isPySpace d) with
  | nil => rfl
  | cons c cs =>
    have := dropWhile_head_false hv
    simp only [wsHeaded]
    simpa using this

theorem mem_takeWhile_isPySpace {l : List Char} {c : Char}
    (h : c ∈ l.takeWhile isPySpace) : isPySpace c = true :=
  List.mem_takeWhile_imp h

theorem mem_takeWhile_nonws {l : List Char} {c : Char}
    (h : c ∈ l.takeWhile (fun d => !isPySpace d)) : isPySpace c = false := by
  simpa using List.mem_takeWhile_imp h

theorem takeWhile_nonws_ne_nil {c : Char} {cs : List Char} (hc : isPySpace c = false) :
    (c :: cs).takeWhile (fun d => !isPySpace d) ≠ [] := by
  simp [List.takeWhile_cons, hc]

/-! ### The anchored match: characterization of successful attempts -/

theorem matchExtendsAt_some_char {cs pre tok rem : List Char}
    (h : matchExtendsAt cs = some (pre, tok, rem)) :
    ExtendsPreShape pre ∧ tok ≠ [] ∧ (∀ c ∈ tok, isPySpace c = false) ∧
      wsHeaded rem = true ∧ cs = pre ++ (tok ++ rem) := by
  unfold matchExtendsAt at h
  by_cases hpf : extendsLit.isPrefixOf cs = true
  case neg => rw [if_neg hpf] at h; exact absurd h (by simp)
  rw [if_pos hpf] at h
  have hcs : cs = extendsLit ++ cs.drop 8 := eq_append_drop_of_isPrefixOf hpf
  have hsplit : (cs.drop 8).takeWhile isPySpace ++ (cs.drop 8).dropWhile isPySpace
      = cs.drop 8 := List.takeWhile_append_dropWhile _ _
  split at h
  next => exact absurd h (by simp)
  next c cs1 hdw =>
    have hc : isPySpace c = false := dropWhile_head_false hdw
    have h8 : cs.drop 8 = (cs.drop 8).takeWhile isPySpace ++ (c :: cs1) := by
      rw [← hdw, hsplit]
    have hdecomp : cs = extendsLit ++ ((cs.drop 8).takeWhile isPySpace ++ (c :: cs1)) := by
      conv_lhs => rw [hcs, h8]
    split at h
    next => exact absurd h (by simp)
    next htw =>
      have hws1 : IsWsRun ((cs.drop 8).takeWhile isPySpace) :=
        ⟨htw, fun d hd => mem_takeWhile_isPySpace hd⟩
      split at h
      next hcdash =>
        -- dash present
        split at h
        next htw2 =>
          -- `-` immediately followed by non-whitespace: token starts at the dash
          injection h with h
          injection h with h1 h
          injection h with h2 h3
          subst h1 h2 h3
          refine ⟨⟨_, [], by rw [List.append_nil], hws1, Or.inl rfl⟩,
            takeWhile_nonws_ne_nil hc, fun d hd => mem_takeWhile_nonws hd,
            wsHeaded_dropWhile_nonws _, ?_⟩
          conv_lhs => rw [hdecomp]
          rw [List.takeWhile_append_dropWhile, List.append_assoc]
        next htw2 =>
          split at h
          next hdw2 =>
            -- `-\s+` reaches the end of input: backtrack, token is the dash alone
            injection h with h
            injection h with h1 h
            injection h with h2 h3
            subst h1 h2 h3
            refine ⟨⟨_, [], by rw [List.append_nil], hws1, Or.inl rfl⟩,
              by simp, ?_, ?_, ?_⟩
            · intro d hd
              simp only [List.mem_singleton] at hd
              subst hd; exact hc
            · cases cs1 with
              | nil => exact absurd rfl htw2
              | cons a t =>
                by_cases ha : isPySpace a = true
                · simpa [wsHeaded] using ha
                · rw [List.takeWhile_cons, if_neg (by simp [ha])] at htw2
                  exact absurd rfl htw2
            · conv_lhs => rw [hdecomp]
              simp
          next d rest2 hdw2 =>
            -- `-\s+` then a token
            injection h with h
            injection h with h1 h
            injection h with h2 h3
            subst h1 h2 h3
            have hd : isPySpace d = false := dropWhile_head_false hdw2
            have h81 : cs1 = cs1.takeWhile isPySpace ++ (d :: rest2) := by
              rw [← hdw2, List.takeWhile_append_dropWhile]
            refine ⟨⟨(cs.drop 8).takeWhile isPySpace, c :: cs1.takeWhile isPySpace,
                by simp, hws1, Or.inr ⟨_, by rw [hcdash], ⟨htw2, fun e he => mem_takeWhile_isPySpace he⟩⟩⟩,
              takeWhile_nonws_ne_nil hd, fun e he => mem_takeWhile_nonws he,
              wsHeaded_dropWhile_nonws _, ?_⟩
            conv_lhs => rw [hdecomp, h81]
            rw [List.takeWhile_append_dropWhile]
            simp
      next hcdash =>
        -- no dash: token starts at `c`
        injection h with h
        injection h with h1 h
        injection h with h2 h3
        subst h1 h2 h3
        refine ⟨⟨_, [], by rw [List.append_nil], hws1, Or.inl rfl⟩,
          takeWhile_nonws_ne_nil hc, fun d hd => mem_takeWhile_nonws hd,
          wsHeaded_dropWhile_nonws _, ?_⟩
        conv_lhs => rw [hdecomp]
        rw [List.takeWhile_append_dropWhile, List.append_assoc]


theorem ExtendsPreShape.length_ge {pre : List Char} (h : ExtendsPreShape pre) :
    9 ≤ pre.length := by
  obtain ⟨ws1, dash, rfl, ⟨hne, -⟩, -⟩ := h
  have h1 : 1 ≤ ws1.length := List.length_pos.mpr hne
  have h8 : extendsLit.length = 8 := rfl
  simp only [List.length_append, h8]
  omega

theorem matchExtendsAt_rem_lt {cs pre tok rem : List Char}
    (h : matchExtendsAt cs = some (pre, tok, rem)) : rem.length < cs.length := by
  obtain ⟨hsh, hne, -, -, hdec⟩ := matchExtendsAt_some_char h
  have h9 := hsh.length_ge
  have h1 : 1 ≤ tok.length := List.length_pos.mpr hne
  rw [hdec]
  simp only [List.length_append]
  omega

/-! ### The left-to-right scan: decomposition of the first match -/

theorem firstMatchScan_some_char : ∀ {cs : List Char} {b : Bool} {a pre tok rem : List Char},
    firstMatchScan b cs = some (a, pre, tok, rem) →
    cs = a ++ (pre ++ (tok ++ rem)) ∧ ExtendsPreShape pre ∧ tok ≠ [] ∧
      (∀ c ∈ tok, isPySpace c = false) ∧ wsHeaded rem = true := by
  intro cs
  induction cs with
  | nil => intro b a pre tok rem h; exact absurd h (by simp [firstMatchScan])
  | cons c rest ih =>
    intro b a pre tok rem h
    rw [firstMatchScan] at h
    cases b with
    | true =>
      rw [if_pos rfl] at h
      cases hm : matchExtendsAt (c :: rest) with
      | some v =>
        obtain ⟨pre', tok', rem'⟩ := v
        rw [hm] at h
        simp only [Option.some.injEq, Prod.mk.injEq] at h
        obtain ⟨h1, h2, h3, h4⟩ := h
        subst h1 h2 h3 h4
        obtain ⟨hsh, hne, hnw, hwsh, hdec⟩ := matchExtendsAt_some_char hm
        exact ⟨by simpa using hdec, hsh, hne, hnw, hwsh⟩
      | none =>
        rw [hm] at h
        cases hs : firstMatchScan (c == '\n') rest with
        | none => rw [hs] at h; exact absurd h (by simp)
        | some r =>
          obtain ⟨a', pre', tok', rem'⟩ := r
          rw [hs] at h
          simp only [Option.map_some', Option.some.injEq, Prod.mk.injEq] at h
          obtain ⟨h1, h2, h3, h4⟩ := h
          subst h1 h2 h3 h4
          obtain ⟨hdec, hsh, hne, hnw, hwsh⟩ := ih hs
          exact ⟨by rw [List.cons_append, ← hdec], hsh, hne, hnw, hwsh⟩
    | false =>
      rw [if_neg (by simp)] at h
      cases hs : firstMatchScan (c == '\n') rest with
      | none => rw [hs] at h; exact absurd h (by simp)
      | some r =>
        obtain ⟨a', pre', tok', rem'⟩ := r
        rw [hs] at h
        simp only [Option.map_some', Option.some.injEq, Prod.mk.injEq] at h
        obtain ⟨h1, h2, h3, h4⟩ := h
        subst h1 h2 h3 h4
        obtain ⟨hdec, hsh, hne, hnw, hwsh⟩ := ih hs
        exact ⟨by rw [List.cons_append, ← hdec], hsh, hne, hnw, hwsh⟩

theorem hasMatchFrom_eq_isSome : ∀ (cs : List Char) (b : Bool),
    hasMatchFrom b cs = (firstMatchScan b cs).isSome := by
  intro cs
  induction cs with
  | nil => intro b; rfl
  | cons c rest ih =>
    intro b
    rw [hasMatchFrom, firstMatchScan]
    cases b with
    | true =>
      cases hm : matchExtendsAt (c :: rest) with
      | some v => obtain ⟨x, y, z⟩ := v; simp [hm]
      | none => simp [hm, ih]
    | false => simp [ih]

/-! ### The substitution scan: fuel irrelevance and unfolding equations -/

theorem subAuxF_fuel (p : List Char) : ∀ (f1 f2 : Nat) (b : Bool) (cs : List Char),
    cs.length ≤ f1 → cs.length ≤ f2 → subAuxF p f1 b cs = subAuxF p f2 b cs := by
  intro f1
  induction f1 with
  | zero =>
    intro f2 b cs h1 h2
    have hnil : cs = [] := List.eq_nil_of_length_eq_zero (Nat.le_zero.mp h1)
    subst hnil
    cases f2 <;> rfl
  | succ f1 ih =>
    intro f2 b cs h1 h2
    cases cs with
    | nil => cases f2 <;> rfl
    | cons c rest =>
      cases f2 with
      | zero => simp at h2
      | succ f2 =>
        simp only [subAuxF]
        cases b with
        | true =>
          rw [if_pos rfl, if_pos rfl]
          cases hm : matchExtendsAt (c :: rest) with
          | some v =>
            obtain ⟨pre', tok', rem'⟩ := v
            have hlt := matchExtendsAt_rem_lt hm
            simp only [List.length_cons] at h1 h2 hlt
            dsimp only
            rw [ih f2 false rem' (by omega) (by omega)]
          | none =>
            simp only [List.length_cons] at h1 h2
            dsimp only
            rw [ih f2 (c == '\n') rest (by omega) (by omega)]
        | false =>
          rw [if_neg (by simp), if_neg (by simp)]
          simp only [List.length_cons] at h1 h2
          rw [ih f2 (c == '\n') rest (by omega) (by omega)]

theorem subAuxF_no_match (p : List Char) : ∀ (f : Nat) (b : Bool) (cs : List Char),
    hasMatchFrom b cs = false → subAuxF p f b cs = cs := by
  intro f
  induction f with
  | zero => intro b cs _; rfl
  | succ f ih =>
    intro b cs h2
    cases cs with
    | nil => rfl
    | cons c rest =>
      rw [hasMatchFrom] at h2
      simp only [subAuxF]
      cases b with
      | true =>
        rw [if_pos rfl]
        cases hm : matchExtendsAt (c :: rest) with
        | some v => rw [hm] at h2; simp at h2
        | none =>
          rw [hm] at h2
          simp only [Option.isSome_none, Bool.and_false, if_neg (by simp : ¬False)] at h2
          rw [ih (c == '\n') rest (by simpa using h2)]
      | false =>
        rw [if_neg (by simp)]
        simp only [Bool.false_and, if_neg (by simp : ¬False)] at h2
        rw [ih (c == '\n') rest (by simpa using h2)]

theorem subScan_no_match (p : List Char) {b : Bool} {cs : List Char}
    (h : hasMatchFrom b cs = false) : subScan p b cs = cs :=
  subAuxF_no_match p cs.length b cs h

theorem subAuxF_first_match (p : List Char) : ∀ (f : Nat) {b : Bool} {cs a pre tok rem : List Char},
    cs.length ≤ f → firstMatchScan b cs = some (a, pre, tok, rem) →
    subAuxF p f b cs = a ++ (pre ++ (p ++ subAuxF p rem.length false rem)) := by
  intro f
  induction f with
  | zero =>
    intro b cs a pre tok rem h1 h2
    have hnil : cs = [] := List.eq_nil_of_length_eq_zero (Nat.le_zero.mp h1)
    subst hnil
    exact absurd h2 (by simp [firstMatchScan])
  | succ f ih =>
    intro b cs a pre tok rem h1 h2
    cases cs with
    | nil => exact absurd h2 (by simp [firstMatchScan])
    | cons c rest =>
      rw [firstMatchScan] at h2
      simp only [subAuxF]
      cases b with
      | true =>
        rw [if_pos rfl] at h2 ⊢
        cases hm : matchExtendsAt (c :: rest) with
        | some v =>
          obtain ⟨pre', tok', rem'⟩ := v
          rw [hm] at h2
          simp only [Option.some.injEq, Prod.mk.injEq] at h2
          obtain ⟨h3, h4, h5, h6⟩ := h2
          subst h3 h4 h5 h6
          have hlt := matchExtendsAt_rem_lt hm
          simp only [List.length_cons] at h1 hlt
          dsimp only
          rw [subAuxF_fuel p f rem'.length false rem' (by omega) (le_refl _)]
          simp
        | none =>
          rw [hm] at h2
          cases hs : firstMatchScan (c == '\n') rest with
          | none => rw [hs] at h2; exact absurd h2 (by simp)
          | some r =>
            obtain ⟨a', pre', tok', rem'⟩ := r
            rw [hs] at h2
            simp only [Option.map_some', Option.some.injEq, Prod.mk.injEq] at h2
            obtain ⟨h3, h4, h5, h6⟩ := h2
            subst h3 h4 h5 h6
            simp only [List.length_cons] at h1
            rw [ih (by omega) hs]
            simp
      | false =>
        rw [if_neg (by simp)] at h2 ⊢
        cases hs : firstMatchScan (c == '\n') rest with
        | none => rw [hs] at h2; exact absurd h2 (by simp)
        | some r =>
          obtain ⟨a', pre', tok', rem'⟩ := r
          rw [hs] at h2
          simp only [Option.map_some', Option.some.injEq, Prod.mk.injEq] at h2
          obtain ⟨h3, h4, h5, h6⟩ := h2
          subst h3 h4 h5 h6
          simp only [List.length_cons] at h1
          rw [ih (by omega) hs]
          simp

theorem subScan_first_match (p : List Char) {b : Bool} {cs a pre tok rem : List Char}
    (h : firstMatchScan b cs = some (a, pre, tok, rem)) :
    subScan p b cs = a ++ (pre ++ (p ++ subScan p false rem)) :=
  subAuxF_first_match p cs.length (le_refl _) h


theorem takeWhile_append_of_dropWhile_ne {q : Char → Bool} {l x : List Char}
    (h : l.dropWhile q ≠ []) :
    (l ++ x).takeWhile q = l.takeWhile q ∧ (l ++ x).dropWhile q = l.dropWhile q ++ x := by
  constructor
  · rw [List.takeWhile_append]
    rw [if_neg]
    intro hlen
    apply h
    have hlen2 := congrArg List.length (List.takeWhile_append_dropWhile q l)
    simp only [List.length_append] at hlen2
    exact List.eq_nil_of_length_eq_zero (by omega)
  · rw [List.dropWhile_append, if_neg (by simpa [List.isEmpty_iff] using h)]

theorem nonws_take_drop_of_wsHeaded {w : List Char} (hw : wsHeaded w = true) :
    w.takeWhile (fun d => !isPySpace d) = [] ∧ w.dropWhile (fun d => !isPySpace d) = w := by
  cases w with
  | nil => exact ⟨rfl, rfl⟩
  | cons c rest =>
    simp only [wsHeaded] at hw
    rw [List.takeWhile_cons, List.dropWhile_cons]
    rw [if_neg (by simp [hw]), if_neg (by simp [hw])]
    exact ⟨rfl, rfl⟩

/-- A group-1 prefix laid out before a whitespace-free token (other than a
bare dash) and a whitespace-headed remainder is matched back exactly as laid
out.  This is what keeps a patched `extends:` line re-matchable. -/
theorem matchExtendsAt_pre {pre tok w : List Char} (hpre : ExtendsPreShape pre)
    (ht : tok ≠ []) (htok : ∀ c ∈ tok, isPySpace c = false) (htd : tok ≠ ['-'])
    (hw : wsHeaded w = true) :
    matchExtendsAt (pre ++ (tok ++ w)) = some (pre, tok, w) := by
  obtain ⟨ws1, dash, rfl, ⟨hws1ne, hws1⟩, hdash⟩ := hpre
  obtain ⟨t0, tok', rfl⟩ : ∃ t0 tok', tok = t0 :: tok' := by
    cases tok with
    | nil => exact absurd rfl ht
    | cons a b => exact ⟨a, b, rfl⟩
  have ht0 : isPySpace t0 = false := htok t0 (by simp)
  obtain ⟨htk, hdk⟩ := nonws_take_drop_of_wsHeaded hw
  have htokall : ∀ c ∈ t0 :: tok', (fun d => !isPySpace d) c = true := by
    intro c hc
    simp [htok c hc]
  have htokdrop : (t0 :: (tok' ++ w)).takeWhile (fun d => !isPySpace d) = t0 :: tok' := by
    rw [← List.cons_append, List.takeWhile_append_of_pos htokall, htk, List.append_nil]
  have htokdrop2 : (t0 :: (tok' ++ w)).dropWhile (fun d => !isPySpace d) = w := by
    rw [← List.cons_append, List.dropWhile_append_of_pos htokall, hdk]
  have hform : (extendsLit ++ ws1 ++ dash) ++ ((t0 :: tok') ++ w)
      = extendsLit ++ (ws1 ++ (dash ++ ((t0 :: tok') ++ w))) := by
    simp [List.append_assoc]
  rw [hform]
  unfold matchExtendsAt
  rw [if_pos (by rw [ List.isPrefixOf_iff_prefix]; exact List.prefix_append _ _)]
  have hdrop : (extendsLit ++ (ws1 ++ (dash ++ ((t0 :: tok') ++ w)))).drop 8
      = ws1 ++ (dash ++ ((t0 :: tok') ++ w)) := List.drop_left' rfl
  rw [hdrop]
  cases hdash with
  | inl hnil =>
    subst hnil
    simp only [List.nil_append]
    have hRtw : (ws1 ++ ((t0 :: tok') ++ w)).takeWhile isPySpace = ws1 := by
      rw [List.takeWhile_append_of_pos hws1, List.cons_append, List.takeWhile_cons,
          if_neg (by simp [ht0]), List.append_nil]
    have hRdw : (ws1 ++ ((t0 :: tok') ++ w)).dropWhile isPySpace = t0 :: (tok' ++ w) := by
      rw [List.dropWhile_append_of_pos hws1, List.cons_append, List.dropWhile_cons,
          if_neg (by simp [ht0])]
    rw [hRtw, hRdw]
    dsimp only
    rw [if_neg hws1ne]
    by_cases ht0d : t0 = '-'
    · rw [if_pos ht0d]
      cases tok' with
      | nil => exact absurd (by rw [ht0d]) htd
      | cons u tok'' =>
        have hu : isPySpace u = false := htok u (by simp)
        have hcs1 : ((u :: tok'') ++ w).takeWhile isPySpace = [] := by
          rw [List.cons_append, List.takeWhile_cons, if_neg (by simp [hu])]
        rw [if_pos hcs1]
        rw [htokdrop, htokdrop2, List.append_nil]
    · rw [if_neg ht0d]
      rw [htokdrop, htokdrop2, List.append_nil]
  | inr hx =>
    obtain ⟨ws2, rfl, hws2ne, hws2⟩ : ∃ ws2, dash = '-' :: ws2 ∧ ws2 ≠ [] ∧
        ∀ c ∈ ws2, isPySpace c = true := by
      obtain ⟨ws2, h1, h2, h3⟩ := hx
      exact ⟨ws2, h1, h2, h3⟩
    have hdash0 : isPySpace '-' = false := by decide
    have hRtw : (ws1 ++ (('-' :: ws2) ++ ((t0 :: tok') ++ w))).takeWhile isPySpace = ws1 := by
      rw [List.takeWhile_append_of_pos hws1, List.cons_append, List.takeWhile_cons,
          if_neg (by decide), List.append_nil]
    have hRdw : (ws1 ++ (('-' :: ws2) ++ ((t0 :: tok') ++ w))).dropWhile isPySpace
        = '-' :: (ws2 ++ ((t0 :: tok') ++ w)) := by
      rw [List.dropWhile_append_of_pos hws1, List.cons_append, List.dropWhile_cons,
          if_neg (by decide)]
    rw [hRtw, hRdw]
    dsimp only
    rw [if_neg hws1ne, if_pos rfl]
    have hws2all : ∀ c ∈ ws2, isPySpace c = true := hws2
    have hcs1tw : (ws2 ++ ((t0 :: tok') ++ w)).takeWhile isPySpace = ws2 := by
      rw [List.takeWhile_append_of_pos hws2all, List.cons_append, List.takeWhile_cons,
          if_neg (by simp [ht0]), List.append_nil]
    have hcs1dw : (ws2 ++ ((t0 :: tok') ++ w)).dropWhile isPySpace = t0 :: (tok' ++ w) := by
      rw [List.dropWhile_append_of_pos hws2all, List.cons_append, List.dropWhile_cons,
          if_neg (by simp [ht0])]
    rw [hcs1tw, hcs1dw]
    rw [if_neg hws2ne]
    dsimp only
    rw [htokdrop, htokdrop2]


/-- A failed anchored attempt stays failed when everything from the token
position onward is replaced: the attempt's literal test and its `\s+` test
only read the first `8` characters and the whitespace run inside `y`, which
both streams share, and once a non-whitespace character is reachable the
attempt always succeeds (so failure never depends on the suffix). -/
theorem matchExtendsAt_append_none {y z z' : List Char} (hy : 8 ≤ y.length)
    (hnws : (y.drop 8).dropWhile isPySpace ≠ []) :
    matchExtendsAt (y ++ z) = none → matchExtendsAt (y ++ z') = none := by
  intro h
  have hpfe : ∀ w : List Char, extendsLit.isPrefixOf (y ++ w) = extendsLit.isPrefixOf y := by
    intro w
    by_cases hp : extendsLit.isPrefixOf y = true
    · rw [hp]
      rw [ List.isPrefixOf_iff_prefix] at hp ⊢
      exact hp.trans (List.prefix_append y w)
    · have hp2 : ¬ extendsLit.isPrefixOf (y ++ w) = true := by
        intro hc
        apply hp
        rw [ List.isPrefixOf_iff_prefix, List.prefix_iff_eq_take] at hc ⊢
        rw [List.take_append_of_le_length (by simpa using hy)] at hc
        exact hc
      simp only [Bool.not_eq_true] at hp hp2
      rw [hp, hp2]
  have hdropApp : ∀ w : List Char, (y ++ w).drop 8 = y.drop 8 ++ w := by
    intro w
    exact List.drop_append_of_le_length hy
  have htwApp : ∀ w : List Char,
      (y.drop 8 ++ w).takeWhile isPySpace = (y.drop 8).takeWhile isPySpace :=
    fun _ => (takeWhile_append_of_dropWhile_ne hnws).1
  have hdwApp : ∀ w : List Char,
      (y.drop 8 ++ w).dropWhile isPySpace = (y.drop 8).dropWhile isPySpace ++ w :=
    fun _ => (takeWhile_append_of_dropWhile_ne hnws).2
  obtain ⟨e, tail, he⟩ : ∃ e tail, (y.drop 8).dropWhile isPySpace = e :: tail := by
    cases hv : (y.drop 8).dropWhile isPySpace with
    | nil => exact absurd hv hnws
    | cons a b => exact ⟨a, b, rfl⟩
  unfold matchExtendsAt at h ⊢
  by_cases hpf : extendsLit.isPrefixOf y = true
  case neg =>
    rw [hpfe z', if_neg hpf]
  case pos =>
    rw [hpfe z, if_pos hpf, hdropApp z, hdwApp z, he, List.cons_append, htwApp z] at h
    rw [hpfe z', if_pos hpf, hdropApp z', hdwApp z', he, List.cons_append, htwApp z']
    dsimp only at h ⊢
    by_cases htw : (y.drop 8).takeWhile isPySpace = []
    · rw [if_pos htw]
    · rw [if_neg htw] at h ⊢
      exfalso
      revert h
      split
      · split
        · simp
        · split <;> simp
      · simp

/-- Any nonempty text followed by a group-1 prefix leaves a non-whitespace
character (`:` of the literal) visible after dropping `8` characters. -/
theorem drop8_dropWhile_ne {x pre : List Char} (hx : x ≠ []) (hpre : ExtendsPreShape pre) :
    ((x ++ pre).drop 8).dropWhile isPySpace ≠ [] := by
  obtain ⟨ws1, dash, rfl, hws1, hdash⟩ := hpre
  intro hcontra
  rw [List.dropWhile_eq_nil_iff] at hcontra
  have hcolon : (':' : Char) ∈ (x ++ (extendsLit ++ ws1 ++ dash)).drop 8 := by
    by_cases hx8 : 8 ≤ x.length
    · rw [List.drop_append_of_le_length hx8]
      refine List.mem_append_right _ ?_
      refine List.mem_append_left _ (List.mem_append_left _ ?_)
      decide
    · have hx1 : 1 ≤ x.length := List.length_pos.mpr hx
      rw [List.drop_append_eq_append_drop]
      rw [List.drop_eq_nil_of_le (by omega), List.nil_append]
      rw [List.append_assoc, List.drop_append_eq_append_drop]
      refine List.mem_append_left _ ?_
      have hk1 : 1 ≤ 8 - x.length := by omega
      have hk7 : 8 - x.length ≤ 7 := by omega
      set k := 8 - x.length with hk
      interval_cases k <;> decide
  exact absurd (hcontra ':' hcolon) (by decide)


theorem firstMatchScan_false_ne_nil {cs : List Char}
    {r : List Char × List Char × List Char × List Char}
    (h : firstMatchScan false cs = some r) : r.1 ≠ [] := by
  cases cs with
  | nil => exact absurd h (by simp [firstMatchScan])
  | cons c rest =>
    rw [firstMatchScan, if_neg (by simp)] at h
    cases hs : firstMatchScan (c == '\n') rest with
    | none => rw [hs] at h; exact absurd h (by simp)
    | some r' =>
      rw [hs] at h
      simp only [Option.map_some', Option.some.injEq] at h
      rw [← h]
      simp

theorem firstMatchScan_of_matchAt {cs pre tok rem : List Char} (hne : cs ≠ [])
    (hm : matchExtendsAt cs = some (pre, tok, rem)) :
    firstMatchScan true cs = some ([], pre, tok, rem) := by
  cases cs with
  | nil => exact absurd rfl hne
  | cons c rest => rw [firstMatchScan, if_pos rfl, hm]

/-- Replacing the matched token (by any whitespace-free, non-bare-dash,
nonempty replacement) and the remainder (by any whitespace-headed remainder)
moves the first multiline match to exactly the same place with the same
group-1 text. -/
theorem firstMatchScan_replace {q : List Char} (hq : q ≠ []) (hqw : ∀ c ∈ q, isPySpace c = false)
    (hqd : q ≠ ['-']) {w' : List Char} (hw' : wsHeaded w' = true) :
    ∀ {a : List Char} {b : Bool} {pre tok rem : List Char},
      firstMatchScan b (a ++ (pre ++ (tok ++ rem))) = some (a, pre, tok, rem) →
      firstMatchScan b (a ++ (pre ++ (q ++ w'))) = some (a, pre, q, w') := by
  intro a
  induction a with
  | nil =>
    intro b pre tok rem h
    obtain ⟨-, hsh, -, -, -⟩ := firstMatchScan_some_char h
    have hprene : pre ≠ [] := by
      intro hc
      have := hsh.length_ge
      rw [hc] at this
      simp at this
    have hnew : matchExtendsAt (pre ++ (q ++ w')) = some (pre, q, w') :=
      matchExtendsAt_pre hsh hq hqw hqd hw'
    cases b with
    | false =>
      exact absurd (firstMatchScan_false_ne_nil h) (by simp)
    | true =>
      simp only [List.nil_append] at h ⊢
      exact firstMatchScan_of_matchAt (by simp [hprene]) hnew
  | cons c a' ih =>
    intro b pre tok rem h
    obtain ⟨-, hsh, -, -, -⟩ := firstMatchScan_some_char h
    rw [List.cons_append] at h ⊢
    rw [firstMatchScan] at h ⊢
    have hassoc : ∀ x : List Char, c :: (a' ++ (pre ++ x)) = ((c :: a') ++ pre) ++ x := by
      intro x
      simp [List.append_assoc]
    cases b with
    | true =>
      rw [if_pos rfl] at h ⊢
      cases hm : matchExtendsAt (c :: (a' ++ (pre ++ (tok ++ rem)))) with
      | some v =>
        obtain ⟨v1, v2, v3⟩ := v
        rw [hm] at h
        simp at h
      | none =>
        rw [hm] at h
        have hscan : firstMatchScan (c == '\n') (a' ++ (pre ++ (tok ++ rem)))
            = some (a', pre, tok, rem) := by
          cases hs : firstMatchScan (c == '\n') (a' ++ (pre ++ (tok ++ rem))) with
          | none => rw [hs] at h; exact absurd h (by simp)
          | some r =>
            obtain ⟨a'', p2, t2, r2⟩ := r
            rw [hs] at h
            simp only [Option.map_some', Option.some.injEq, Prod.mk.injEq,
              List.cons.injEq] at h
            obtain ⟨⟨-, h1⟩, h2, h3, h4⟩ := h
            subst h1 h2 h3 h4
            rfl
        have hylen : 8 ≤ ((c :: a') ++ pre).length := by
          have := hsh.length_ge
          simp only [List.length_append]
          omega
        have hynws := @drop8_dropWhile_ne (c :: a') pre (by simp) hsh
        have htrans := @matchExtendsAt_append_none ((c :: a') ++ pre) (tok ++ rem)
          (q ++ w') hylen hynws
        rw [← hassoc (tok ++ rem), ← hassoc (q ++ w')] at htrans
        rw [htrans hm]
        rw [ih hscan]
        simp
    | false =>
      rw [if_neg (by simp)] at h ⊢
      have hscan : firstMatchScan (c == '\n') (a' ++ (pre ++ (tok ++ rem)))
          = some (a', pre, tok, rem) := by
        cases hs : firstMatchScan (c == '\n') (a' ++ (pre ++ (tok ++ rem))) with
        | none => rw [hs] at h; exact absurd h (by simp)
        | some r =>
          obtain ⟨a'', p2, t2, r2⟩ := r
          rw [hs] at h
          simp only [Option.map_some', Option.some.injEq, Prod.mk.injEq,
            List.cons.injEq] at h
          obtain ⟨⟨-, h1⟩, h2, h3, h4⟩ := h
          subst h1 h2 h3 h4
          rfl
      rw [ih hscan]
      simp

theorem wsHeaded_subScan {p w : List Char} (hw : wsHeaded w = true) :
    wsHeaded (subScan p false w) = true := by
  cases w with
  | nil => exact hw
  | cons c rest =>
    simp only [subScan, List.length_cons, subAuxF]
    rw [if_neg (by simp)]
    simpa [wsHeaded] using hw


/-- Idempotence of the substitution scan for replacements that are themselves
single whitespace-free tokens (and not a bare dash): rescanning the output
finds exactly the rewritten matches and rewrites them to themselves. -/
theorem subScan_idem {p : List Char} (hp : p ≠ []) (hpw : ∀ c ∈ p, isPySpace c = false)
    (hpd : p ≠ ['-']) :
    ∀ (n : Nat) (b : Bool) (cs : List Char), cs.length ≤ n →
      subScan p b (subScan p b cs) = subScan p b cs := by
  intro n
  induction n with
  | zero =>
    intro b cs h
    have hnil : cs = [] := List.eq_nil_of_length_eq_zero (Nat.le_zero.mp h)
    subst hnil
    rfl
  | succ n ih =>
    intro b cs h
    cases hs : firstMatchScan b cs with
    | none =>
      have hnone : hasMatchFrom b cs = false := by
        rw [hasMatchFrom_eq_isSome, hs]
        rfl
      rw [subScan_no_match p hnone, subScan_no_match p hnone]
    | some r =>
      obtain ⟨a, pre, tok, rem⟩ := r
      obtain ⟨hdec, hsh, htne, htnw, hwsh⟩ := firstMatchScan_some_char hs
      have hout : subScan p b cs = a ++ (pre ++ (p ++ subScan p false rem)) :=
        subScan_first_match p hs
      have hscan2 : firstMatchScan b (a ++ (pre ++ (p ++ subScan p false rem)))
          = some (a, pre, p, subScan p false rem) :=
        @firstMatchScan_replace p hp hpw hpd (subScan p false rem) (wsHeaded_subScan hwsh)
          a b pre tok rem (by rw [← hdec]; exact hs)
      have hrem : rem.length ≤ n := by
        have h9 := hsh.length_ge
        have h1 : 1 ≤ tok.length := List.length_pos.mpr htne
        have := congrArg List.length hdec
        simp only [List.length_append] at this
        omega
      rw [hout]
      rw [subScan_first_match p hscan2]
      rw [ih false rem hrem]


/-! ### Claim theorems -/

theorem subAuxF_extendsRw (p : List Char) : ∀ (f : Nat) (b : Bool) (cs : List Char),
    cs.length ≤ f → ExtendsRw p b cs (subAuxF p f b cs) := by
  intro f
  induction f with
  | zero =>
    intro b cs h
    have hnil : cs = [] := List.eq_nil_of_length_eq_zero (Nat.le_zero.mp h)
    subst hnil
    exact .nil b
  | succ f ih =>
    intro b cs h
    cases cs with
    | nil => exact .nil b
    | cons c rest =>
      simp only [subAuxF]
      simp only [List.length_cons] at h
      cases b with
      | true =>
        rw [if_pos rfl]
        cases hm : matchExtendsAt (c :: rest) with
        | some v =>
          obtain ⟨pre, tok, rem⟩ := v
          dsimp only
          obtain ⟨hsh, htne, htnw, -, hdec⟩ := matchExtendsAt_some_char hm
          have hlt := matchExtendsAt_rem_lt hm
          simp only [List.length_cons] at hlt
          rw [hdec]
          exact .replace pre tok rem _ hsh htne htnw (ih false rem (by omega))
        | none =>
          dsimp only
          exact .copy true c _ _ (ih (c == '\n') rest (by omega))
      | false =>
        rw [if_neg (by simp)]
        exact .copy false c _ _ (ih (c == '\n') rest (by omega))

/-- C1: for every umbrella text and dialect path, the patched text is related
to the original by `ExtendsRw`: only the non-whitespace tokens following (at
a line start) an `extends:` directive — with its whitespace and optional
list-dash marker kept in place — are replaced by the dialect path, and every
other byte, line endings included, is copied verbatim into the written
result. -/
theorem patch_rewrites_only_extends_tokens (p old : String) :
    ExtendsRw p.data true old.data (subExtends p old).data :=
  subAuxF_extendsRw p.data old.data.length true old.data (le_refl _)

/-- C7: when the umbrella text has a first multiline match (prefix text `a`,
group-1 text `pre`, token `tok`) and no further match after it (the
conventional single `extends:` declaration), the patcher's output is exactly
the input with that single token replaced by the dialect path: the `extends:`
prefix and list-dash marker (`pre`) are preserved and exactly one
substitution occurs. -/
theorem patch_single_substitution (p text : String) (a pre tok rem : List Char)
    (h1 : firstMatchScan true text.data = some (a, pre, tok, rem))
    (h2 : hasMatchFrom false rem = false) :
    (subExtends p text).data = a ++ (pre ++ (p.data ++ rem)) := by
  show subScan p.data true text.data = _
  rw [subScan_first_match p.data h1, subScan_no_match p.data h2]

theorem patch_single_substitution_witness :
    (subExtends "Packages/SQL/PostgreSQL.sublime-syntax" sqlText).data =
      "%YAML 1.2\n---\nname: SQL\nscope: source.sql\nversion: 2\n\n".data ++
        ("extends: ".data ++ ("Packages/SQL/PostgreSQL.sublime-syntax".data ++
          "\n\nfile_extensions:\n  - sql\n".data)) :=
  patch_single_substitution "Packages/SQL/PostgreSQL.sublime-syntax" sqlText
    "%YAML 1.2\n---\nname: SQL\nscope: source.sql\nversion: 2\n\n".data
    "extends: ".data "Packages/SQL/MySQL.sublime-syntax".data
    "\n\nfile_extensions:\n  - sql\n".data (by decide) (by decide)


/-- C4 counterexample: with a dialect whose resource path contains spaces
(such paths exist, e.g. Sublime's `Java Server Pages (JSP).sublime-syntax`)
patching is not idempotent: after one application the stored text holds the
space-containing path, the second application matches only its first
space-free chunk as the token and rewrites the file again instead of
detecting a no-op. -/
theorem patch_not_idempotent_space_path :
    subExtends jspSyn.path
        (subExtends jspSyn.path "extends: Packages/Java/JSP.sublime-syntax\n")
      ≠ subExtends jspSyn.path "extends: Packages/Java/JSP.sublime-syntax\n" ∧
    load_resource envAfterSpacePatch webSyn.path
      = some (subExtends jspSyn.path "extends: Packages/Java/JSP.sublime-syntax\n") ∧
    run envAfterSpacePatch webSyn.path jspSyn.path ≠ .noop := by
  refine ⟨by decide, by decide, by decide⟩

/-- C4 (amended): patch(U, D) is idempotent whenever D's resource path is a
single whitespace-free token (nonempty, no whitespace characters, and not the
bare dash `"-"`): re-patching the stored result reproduces it byte for byte,
and a second `run` against the stored result detects the no-op through the
text-equality check and performs no write. -/
theorem patch_idempotent_of_token_path (env : Env) (sf df : String) (U D : SyntaxRes)
    (old : String)
    (hU : syntax_from_path env sf = some U)
    (hD : syntax_from_path env df = some D)
    (hp1 : D.path.data ≠ [])
    (hp2 : ∀ c ∈ D.path.data, isPySpace c = false)
    (hp3 : D.path.data ≠ ['-'])
    (hload : load_resource env U.path = some (subExtends D.path old)) :
    subExtends D.path (subExtends D.path old) = subExtends D.path old ∧
      run env sf df = .noop := by
  have hidem : subExtends D.path (subExtends D.path old) = subExtends D.path old := by
    show String.mk (subScan D.path.data true (subScan D.path.data true old.data))
        = String.mk (subScan D.path.data true old.data)
    exact congrArg String.mk
      (subScan_idem hp1 hp2 hp3 old.data.length true old.data (le_refl _))
  refine ⟨hidem, ?_⟩
  unfold run
  rw [hU]
  dsimp only
  rw [hD]
  dsimp only
  rw [hload]
  dsimp only
  rw [if_pos hidem.symm]

theorem patch_idempotent_witness :
    subExtends postgresSyn.path (subExtends postgresSyn.path sqlText)
        = subExtends postgresSyn.path sqlText ∧
      run envAfterPg sqlSyn.path postgresSyn.path = .noop :=
  patch_idempotent_of_token_path envAfterPg sqlSyn.path postgresSyn.path sqlSyn postgresSyn
    sqlText (by decide) (by decide) (by decide) (by decide) (by decide) (by decide)

/-- C5 counterexample: with a first dialect path containing a space the
round-trip patch(U,D1); patch(U,D2); patch(U,D1) does not restore the text
after the first patch: the middle patch replaces only the first space-free
chunk of D1's path and leaves its tail behind. -/
theorem roundtrip_fails_space_path :
    subExtends "Packages/CSS/Style Sheets.sublime-syntax"
        (subExtends "Packages/CSS/SCSS.sublime-syntax"
          (subExtends "Packages/CSS/Style Sheets.sublime-syntax"
            "extends: Packages/CSS/CSS.sublime-syntax\n"))
      ≠ subExtends "Packages/CSS/Style Sheets.sublime-syntax"
          "extends: Packages/CSS/CSS.sublime-syntax\n" := by decide

/-- C5 (amended): for a conventional umbrella text (one `extends:` match and
none after it) and dialect paths that are single whitespace-free tokens
(nonempty, not a bare dash), the sequence patch(U,D1); patch(U,D2);
patch(U,D1) yields, at every step, the original text with only the token
replaced (by D1, then D2, then D1 again), so the final text equals the text
after the first patch and everything outside the token is unchanged
throughout. -/
theorem patch_roundtrip_of_token_paths (p1 p2 old : String)
    (a pre tok rem : List Char)
    (h1 : firstMatchScan true old.data = some (a, pre, tok, rem))
    (h2 : hasMatchFrom false rem = false)
    (hp1 : p1.data ≠ []) (hp1w : ∀ c ∈ p1.data, isPySpace c = false)
    (hp1d : p1.data ≠ ['-'])
    (hp2 : p2.data ≠ []) (hp2w : ∀ c ∈ p2.data, isPySpace c = false)
    (hp2d : p2.data ≠ ['-']) :
    (subExtends p1 old).data = a ++ (pre ++ (p1.data ++ rem)) ∧
    (subExtends p2 (subExtends p1 old)).data = a ++ (pre ++ (p2.data ++ rem)) ∧
    (subExtends p1 (subExtends p2 (subExtends p1 old))).data
        = a ++ (pre ++ (p1.data ++ rem)) := by
  obtain ⟨hdec, hsh, htne, htnw, hwsh⟩ := firstMatchScan_some_char h1
  have e1 : (subExtends p1 old).data = a ++ (pre ++ (p1.data ++ rem)) := by
    show subScan p1.data true old.data = _
    rw [subScan_first_match p1.data h1, subScan_no_match p1.data h2]
  have hscan1 : firstMatchScan true (a ++ (pre ++ (p1.data ++ rem)))
      = some (a, pre, p1.data, rem) :=
    @firstMatchScan_replace p1.data hp1 hp1w hp1d rem hwsh a true pre tok rem
      (by rw [← hdec]; exact h1)
  have e2 : (subExtends p2 (subExtends p1 old)).data = a ++ (pre ++ (p2.data ++ rem)) := by
    show subScan p2.data true (subExtends p1 old).data = _
    rw [e1, subScan_first_match p2.data hscan1, subScan_no_match p2.data h2]
  have hscan2 : firstMatchScan true (a ++ (pre ++ (p2.data ++ rem)))
      = some (a, pre, p2.data, rem) :=
    @firstMatchScan_replace p2.data hp2 hp2w hp2d rem hwsh a true pre tok rem
      (by rw [← hdec]; exact h1)
  have e3 : (subExtends p1 (subExtends p2 (subExtends p1 old))).data
      = a ++ (pre ++ (p1.data ++ rem)) := by
    show subScan p1.data true (subExtends p2 (subExtends p1 old)).data = _
    rw [e2, subScan_first_match p1.data hscan2, subScan_no_match p1.data h2]
  exact ⟨e1, e2, e3⟩

theorem patch_roundtrip_witness :
    (subExtends postgresSyn.path sqlText).data =
      "%YAML 1.2\n---\nname: SQL\nscope: source.sql\nversion: 2\n\n".data ++
        ("extends: ".data ++ ("Packages/SQL/PostgreSQL.sublime-syntax".data ++
          "\n\nfile_extensions:\n  - sql\n".data)) ∧
    (subExtends mysqlSyn.path (subExtends postgresSyn.path sqlText)).data =
      "%YAML 1.2\n---\nname: SQL\nscope: source.sql\nversion: 2\n\n".data ++
        ("extends: ".data ++ ("Packages/SQL/MySQL.sublime-syntax".data ++
          "\n\nfile_extensions:\n  - sql\n".data)) ∧
    (subExtends postgresSyn.path
        (subExtends mysqlSyn.path (subExtends postgresSyn.path sqlText))).data =
      "%YAML 1.2\n---\nname: SQL\nscope: source.sql\nversion: 2\n\n".data ++
        ("extends: ".data ++ ("Packages/SQL/PostgreSQL.sublime-syntax".data ++
          "\n\nfile_extensions:\n  - sql\n".data)) :=
  patch_roundtrip_of_token_paths postgresSyn.path mysqlSyn.path sqlText
    "%YAML 1.2\n---\nname: SQL\nscope: source.sql\nversion: 2\n\n".data
    "extends: ".data "Packages/SQL/MySQL.sublime-syntax".data
    "\n\nfile_extensions:\n  - sql\n".data
    (by decide) (by decide) (by decide) (by decide) (by decide)
    (by decide) (by decide) (by decide)


/-- C10: when the umbrella's backing text has no line matching the
`extends:` pattern, the substitution leaves the text unchanged and `run` is a
complete no-op: the equality check short-circuits and no write happens. -/
theorem run_noop_without_extends (env : Env) (sf df : String) (U D : SyntaxRes) (old : String)
    (hU : syntax_from_path env sf = some U)
    (hD : syntax_from_path env df = some D)
    (hload : load_resource env U.path = some old)
    (hnm : hasMatchFrom true old.data = false) :
    subExtends D.path old = old ∧ run env sf df = .noop := by
  have hsub : subExtends D.path old = old := by
    show String.mk (subScan D.path.data true old.data) = old
    rw [subScan_no_match D.path.data hnm]
  refine ⟨hsub, ?_⟩
  unfold run
  rw [hU]
  dsimp only
  rw [hD]
  dsimp only
  rw [hload]
  dsimp only
  rw [if_pos hsub.symm]

theorem run_noop_without_extends_witness :
    subExtends mysqlSyn.path noExtText = noExtText ∧
      run envNoExt noExtSyn.path mysqlSyn.path = .noop :=
  run_noop_without_extends envNoExt noExtSyn.path mysqlSyn.path noExtSyn mysqlSyn noExtText
    (by decide) (by decide) (by decide) (by decide)

/-- C6: if the umbrella path does not resolve, `run` stops at once with the
message naming that path; if the umbrella resolves but the dialect path does
not, `run` stops with the message naming the dialect path.  In both cases the
result is the bare diagnostic: nothing is read, substituted or written. -/
theorem run_aborts_on_invalid_paths (env : Env) (sf df : String) :
    (syntax_from_path env sf = none → run env sf df = .invalidTarget sf) ∧
    (∀ U, syntax_from_path env sf = some U → syntax_from_path env df = none →
      run env sf df = .invalidDialect df) := by
  constructor
  · intro h
    unfold run
    rw [h]
  · intro U hU hD
    unfold run
    rw [hU]
    dsimp only
    rw [hD]

theorem run_aborts_on_invalid_paths_witness :
    run envMain "Packages/Nope/Nope.sublime-syntax" "x"
        = .invalidTarget "Packages/Nope/Nope.sublime-syntax" ∧
      run envMain sqlSyn.path "Packages/Nope/Nope.sublime-syntax"
        = .invalidDialect "Packages/Nope/Nope.sublime-syntax" :=
  ⟨(run_aborts_on_invalid_paths envMain "Packages/Nope/Nope.sublime-syntax" "x").1 (by decide),
   (run_aborts_on_invalid_paths envMain sqlSyn.path "Packages/Nope/Nope.sublime-syntax").2
     sqlSyn (by decide) (by decide)⟩

/-- C8: when the substituted text differs from the original, `run` writes the
new text — in full — to the resource path resolved against the parent
directory of the packages path, with UTF-8 encoding and newline "\n" (the
`open` arguments of the write). -/
theorem run_writes_physical_path_utf8 (env : Env) (sf df : String) (U D : SyntaxRes)
    (old : String)
    (hU : syntax_from_path env sf = some U)
    (hD : syntax_from_path env df = some D)
    (hload : load_resource env U.path = some old)
    (hne : subExtends D.path old ≠ old) :
    run env sf df = .written (parentDir env.packagesPath ++ "/" ++ U.path)
      (subExtends D.path old) "utf-8" "\n" := by
  unfold run
  rw [hU]
  dsimp only
  rw [hD]
  dsimp only
  rw [hload]
  dsimp only
  rw [if_neg (fun hc => hne hc.symm)]
  rfl

theorem run_writes_physical_path_utf8_witness :
    run envMain sqlSyn.path postgresSyn.path =
      .written "/home/u/Sublime Text/Packages/SQL/SQL.sublime-syntax"
        (subExtends postgresSyn.path sqlText) "utf-8" "\n" := by
  have h := run_writes_physical_path_utf8 envMain sqlSyn.path postgresSyn.path sqlSyn
    postgresSyn sqlText (by decide) (by decide) (by decide) (by decide)
  rw [h]
  rfl

/-- C9: an umbrella whose scope splits into fewer than two dot-segments makes
the enumerator fail fast with the `IndexError` of `default_scopes[1]`, before
reading any resource — it never produces a list from a wrong filter scope. -/
theorem enumerator_fails_fast_short_scope (env : Env) (U : SyntaxRes)
    (h : (splitChar '.' U.scope.data).length < 2) :
    list_items env U = .error .indexError := by
  unfold list_items
  cases hsc : splitChar '.' U.scope.data with
  | nil => rfl
  | cons s0 tl =>
    cases tl with
    | nil => rfl
    | cons s1 tl' =>
      rw [hsc] at h
      simp only [List.length_cons] at h
      omega

theorem enumerator_fails_fast_short_scope_witness :
    list_items envMain plainSyn = .error .indexError :=
  enumerator_fails_fast_short_scope envMain plainSyn (by decide)


/-- C3: every item the enumerator returns comes from a registered syntax that
is not the umbrella, is not hidden, and whose scope starts (plain string
prefix, not segment-aware) with the first two dot-segments of the umbrella's
scope; the item carries that syntax's path as value and name as text. -/
theorem enumerator_candidates_sound (env : Env) (U : SyntaxRes) (s0 s1 : List Char)
    (tl : List (List Char)) (items : List ListInputItem)
    (hsc : splitChar '.' U.scope.data = s0 :: s1 :: tl)
    (h : list_items env U = .ok items) :
    ∀ it ∈ items, ∃ s, s ∈ env.syntaxes ∧ s ≠ U ∧ s.hidden = false ∧
      (s0 ++ '.' :: s1).isPrefixOf s.scope.data = true ∧
      it.value = s.path ∧ it.text = s.name := by
  unfold list_items at h
  rw [hsc] at h
  dsimp only at h
  cases hload : load_resource env U.path with
  | none => rw [hload] at h; exact absurd h (by simp)
  | some content =>
    rw [hload] at h
    dsimp only at h
    injection h with h
    subst h
    intro it hit
    rw [List.mem_map] at hit
    obtain ⟨s, hsf, rfl⟩ := hit
    rw [List.mem_filter] at hsf
    obtain ⟨hmem, hcond⟩ := hsf
    simp only [Bool.and_eq_true, bne_iff_ne, Bool.not_eq_true'] at hcond
    obtain ⟨⟨hh, hne⟩, hpre⟩ := hcond
    exact ⟨s, hmem, hne, hh, hpre, rfl, rfl⟩

theorem enumerator_candidates_sound_witness :
    ∃ s, s ∈ envMain.syntaxes ∧ s ≠ sqlSyn ∧ s.hidden = false ∧
      ("source".data ++ '.' :: "sql".data).isPrefixOf s.scope.data = true ∧
      ({ text := "MySQL", value := "Packages/SQL/MySQL.sublime-syntax",
         kind := selected_kind } : ListInputItem).value = s.path ∧
      ({ text := "MySQL", value := "Packages/SQL/MySQL.sublime-syntax",
         kind := selected_kind } : ListInputItem).text = s.name :=
  enumerator_candidates_sound envMain sqlSyn "source".data "sql".data []
    [({ text := "MySQL", value := "Packages/SQL/MySQL.sublime-syntax",
        kind := selected_kind } : ListInputItem),
     { text := "PostgreSQL", value := "Packages/SQL/PostgreSQL.sublime-syntax",
        kind := KIND_AMBIGUOUS }]
    (by decide) (by decide)
    { text := "MySQL", value := "Packages/SQL/MySQL.sublime-syntax", kind := selected_kind }
    (by decide)

theorem filter_selected_none {S U : SyntaxRes} {pfx : List Char} :
    ∀ l : List SyntaxRes, S ∉ l →
    ((l.filter (fun s => !s.hidden && s != U && pfx.isPrefixOf s.scope.data)).map
        (fun s => ({ text := s.name, value := s.path,
                     kind := if (some S : Option SyntaxRes) = some s then selected_kind
                             else KIND_AMBIGUOUS } : ListInputItem))).filter
      (fun it => it.kind == selected_kind) = [] := by
  intro l
  induction l with
  | nil => intro _; rfl
  | cons x xs ih =>
    intro hmem
    have hxS : ¬ ((some S : Option SyntaxRes) = some x) := by
      intro hc
      injection hc with hc'
      exact hmem (hc' ▸ List.mem_cons_self x xs)
    have hxs : S ∉ xs := fun hc => hmem (List.mem_cons_of_mem x hc)
    rw [List.filter_cons]
    by_cases hpass : (!x.hidden && x != U && pfx.isPrefixOf x.scope.data) = true
    · have hns2 : ¬ ((({ text := x.name, value := x.path,
                         kind := if (some S : Option SyntaxRes) = some x then selected_kind
                                 else KIND_AMBIGUOUS } : ListInputItem)).kind
          == selected_kind) = true := by
        dsimp only
        rw [if_neg hxS]
        decide
      rw [if_pos hpass, List.map_cons, List.filter_cons, if_neg hns2]
      exact ih hxs
    · rw [if_neg hpass]
      exact ih hxs

theorem filter_selected_eq {S U : SyntaxRes} {pfx : List Char}
    (hS : (!S.hidden && S != U && pfx.isPrefixOf S.scope.data) = true) :
    ∀ l : List SyntaxRes, l.Nodup → S ∈ l →
    ((l.filter (fun s => !s.hidden && s != U && pfx.isPrefixOf s.scope.data)).map
        (fun s => ({ text := s.name, value := s.path,
                     kind := if (some S : Option SyntaxRes) = some s then selected_kind
                             else KIND_AMBIGUOUS } : ListInputItem))).filter
      (fun it => it.kind == selected_kind) =
      [{ text := S.name, value := S.path, kind := selected_kind }] := by
  intro l
  induction l with
  | nil => intro _ hmem; simp at hmem
  | cons x xs ih =>
    intro hnd hmem
    rw [List.nodup_cons] at hnd
    obtain ⟨hx, hnd'⟩ := hnd
    rw [List.filter_cons]
    by_cases hxS : x = S
    · subst hxS
      have hsel : ((({ text := x.name, value := x.path,
                       kind := if (some x : Option SyntaxRes) = some x then selected_kind
                               else KIND_AMBIGUOUS } : ListInputItem)).kind
          == selected_kind) = true := by
        dsimp only
        rw [if_pos rfl]
        decide
      rw [if_pos hS, List.map_cons, List.filter_cons, if_pos hsel]
      rw [filter_selected_none xs hx]
      rw [if_pos rfl]
    · have hmem' : S ∈ xs := by
        cases List.mem_cons.mp hmem with
        | inl hc => exact absurd hc.symm hxS
        | inr hc => exact hc
      have hns : ¬ ((some S : Option SyntaxRes) = some x) := by
        intro hc
        injection hc with hc'
        exact hxS hc'.symm
      by_cases hpass : (!x.hidden && x != U && pfx.isPrefixOf x.scope.data) = true
      · have hns2 : ¬ ((({ text := x.name, value := x.path,
                           kind := if (some S : Option SyntaxRes) = some x then selected_kind
                                   else KIND_AMBIGUOUS } : ListInputItem)).kind
            == selected_kind) = true := by
          dsimp only
          rw [if_neg hns]
          decide
        rw [if_pos hpass, List.map_cons, List.filter_cons, if_neg hns2]
        exact ih hnd' hmem'
      · rw [if_neg hpass]
        exact ih hnd' hmem'


/-- C2 counterexample: when the umbrella's `extends:` directive names the
umbrella itself, every condition of the claim holds — the directive resolves
to a registered, non-hidden resource whose scope starts with the two-segment
filter scope — yet the enumerator returns no selected candidate at all
(the resolved syntax is excluded as the umbrella), so no candidate carries
the selected marker. -/
theorem selected_marker_absent_when_dialect_is_umbrella :
    searchExtends "extends: Packages/Self/Self.sublime-syntax\n" = some selfSyn.path ∧
    syntax_from_path envSelf selfSyn.path = some selfSyn ∧
    selfSyn.hidden = false ∧
    ("source".data ++ '.' :: "self".data).isPrefixOf selfSyn.scope.data = true ∧
    list_items envSelf selfSyn = .ok [] :=
  ⟨by decide, by decide, by decide, by decide, by decide⟩

/-- C2 (amended): if the umbrella's backing text has an `extends:` match
naming a path that resolves to a registered, non-hidden, scope-matching
syntax distinct from the umbrella, and the registry lists each resource
once, then exactly one enumerated candidate carries the selected marker, and
it is the resolved dialect (whose path is the resolved `extends:` target). -/
theorem selected_marker_unique (env : Env) (U : SyntaxRes) (s0 s1 : List Char)
    (tl : List (List Char)) (content dpath : String) (S : SyntaxRes)
    (hnd : env.syntaxes.Nodup)
    (hsc : splitChar '.' U.scope.data = s0 :: s1 :: tl)
    (hload : load_resource env U.path = some content)
    (hsearch : searchExtends content = some dpath)
    (hres : syntax_from_path env dpath = some S)
    (hhid : S.hidden = false)
    (hpre : (s0 ++ '.' :: s1).isPrefixOf S.scope.data = true)
    (hne : S ≠ U) :
    S.path = dpath ∧
      ∃ items, list_items env U = .ok items ∧
        items.filter (fun it => it.kind == selected_kind) =
          [{ text := S.name, value := S.path, kind := selected_kind }] := by
  have hSmem : S ∈ env.syntaxes := List.mem_of_find?_eq_some hres
  have hSpath : S.path = dpath := by
    have hfind := List.find?_some hres
    simpa using hfind
  refine ⟨hSpath, ?_⟩
  have hS : (!S.hidden && S != U && (s0 ++ '.' :: s1).isPrefixOf S.scope.data) = true := by
    simp [hhid, hpre, bne_iff_ne, hne]
  refine ⟨_, ?_, filter_selected_eq hS env.syntaxes hnd hSmem⟩
  unfold list_items
  rw [hsc]
  dsimp only
  rw [hload]
  dsimp only
  rw [hsearch]
  dsimp only
  rw [hres]

theorem selected_marker_unique_witness :
    mysqlSyn.path = "Packages/SQL/MySQL.sublime-syntax" ∧
      ∃ items, list_items envMain sqlSyn = .ok items ∧
        items.filter (fun it => it.kind == selected_kind) =
          [{ text := mysqlSyn.name, value := mysqlSyn.path, kind := selected_kind }] :=
  selected_marker_unique envMain sqlSyn "source".data "sql".data [] sqlText
    "Packages/SQL/MySQL.sublime-syntax" mysqlSyn (by decide) (by decide) (by decide)
    (by decide) (by decide) (by decide) (by decide) (by decide)


end DefaultSyntaxChooser
